import Mathlib

/-!
Shallow embedding of the badminton week-sheet application (`app.py`).

The application is a CRUD layer over three tables (`players`, `weeks`,
`week_player_games`).  We model a database state as lists of rows plus the
autoincrement counters of the two integer primary keys, and each route's
data logic as a pure function on that state.  Calendar dates and timestamps
are modelled as natural numbers (the code only ever compares dates for
equality and orders them).
-/

namespace CBP

/-- The constant `GAMES_PER_WEEK = 16` of `app.py`. -/
def GAMES_PER_WEEK : Nat := 16

/-- The built-in default roster `DEFAULT_PLAYERS: list[str] = []` of `app.py`. -/
def DEFAULT_PLAYERS : List String := []

/-- A row of the `players` table: `id` (autoincrement PK), `name`,
`sort_order`. -/
structure Player where
  id : Nat
  name : String
  sort_order : Nat
  deriving Repr, DecidableEq

/-- A row of the `weeks` table: `id` (autoincrement PK), `week_date`
(unique calendar date, modelled as `Nat`), `created_at` timestamp. -/
structure Week where
  id : Nat
  week_date : Nat
  created_at : Nat
  deriving Repr, DecidableEq

/-- A row of the `week_player_games` table: composite PK
`(week_id, player_id, game_no)` plus the `played` boolean. -/
structure Cell where
  week_id : Nat
  player_id : Nat
  game_no : Nat
  played : Bool
  deriving Repr, DecidableEq

/-- The whole database state: the three tables plus the autoincrement
counters for `players.id` and `weeks.id`. -/
structure DB where
  players : List Player
  weeks : List Week
  cells : List Cell
  next_player_id : Nat
  next_week_id : Nat
  deriving Repr, DecidableEq

/-- The game numbers `range(1, GAMES_PER_WEEK + 1)`, i.e. 1..16. -/
def gameNos : List Nat := List.range' 1 GAMES_PER_WEEK

/-!  ### Roster normalization (`players` route, POST branch)

`names = [line.strip() for line in raw.splitlines() if line.strip()]`:
trim every line and keep the nonempty results.  The input is modelled as
the list of lines of the textarea. -/

/-- Python `str.strip()`: remove whitespace from both ends, modelled on the
character list of the string. -/
def pyStrip (s : String) : String :=
  ⟨(((s.data.dropWhile Char.isWhitespace).reverse).dropWhile Char.isWhitespace).reverse⟩

/-- Python `str.lower()`: lowercase the string characterwise. -/
def pyLower (s : String) : String :=
  ⟨s.data.map Char.toLower⟩

/-- Trim each line and drop the ones that are empty after trimming. -/
def normalize_names (lines : List String) : List String :=
  (lines.map pyStrip).filter (fun s => !s.isEmpty)

/-- The dedup loop of the `players` route: walk the names, skipping a name
whose lowercasing is already in `seen`, otherwise keeping it (with its
original casing) and recording its lowercasing. -/
def dedup_names (seen : List String) : List String → List String
  | [] => []
  | n :: rest =>
    if pyLower n ∈ seen then dedup_names seen rest
    else n :: dedup_names (pyLower n :: seen) rest

/-- The deduplicated name list `unique_names` as computed by the `players`
route from the raw lines. -/
def unique_names (lines : List String) : List String :=
  dedup_names [] (normalize_names lines)

/-- Fresh player rows as built by `enumerate(unique_names, start=1)`:
autoincrement ids starting at `base` and `sort_order` starting at `idx`. -/
def mkPlayers (base idx : Nat) : List String → List Player
  | [] => []
  | n :: rest => ⟨base, n, idx⟩ :: mkPlayers (base + 1) (idx + 1) rest

/-- The 16 fresh `played=false` cells for one `(week_id, player_id)` pair,
then all cells of one week over a list of player ids (the inner loops of
both `ensure_week` and the `players` route). -/
def cellsForWeek (week_id : Nat) : List Nat → List Cell
  | [] => []
  | pid :: rest =>
      gameNos.map (fun g => ⟨week_id, pid, g, false⟩) ++ cellsForWeek week_id rest

/-- The triple loop of the `players` route: for every week, for every
player, for every game number, one fresh `played=false` cell. -/
def cellsForWeeks (pids : List Nat) : List Week → List Cell
  | [] => []
  | w :: rest => cellsForWeek w.id pids ++ cellsForWeeks pids rest

/-- The POST branch of the `players` route (`replacePlayers`): normalize
and dedup the submitted lines; if the result is nonempty, delete all cells
and players, insert the new players with 1-based `sort_order`, and
regenerate all cells for every existing week; if empty, change nothing. -/
def replace_players (lines : List String) (st : DB) : DB :=
  let u := unique_names lines
  if u.isEmpty then st
  else
    let ps := mkPlayers st.next_player_id 1 u
    { players := ps
      weeks := st.weeks
      cells := cellsForWeeks (ps.map (·.id)) st.weeks
      next_player_id := st.next_player_id + u.length
      next_week_id := st.next_week_id }

/-!  ### Week manager (`ensure_week`) -/

/-- The player ordering `order_by(players_table.c.sort_order.asc())`. -/
def playerAsc : Player → Player → Prop := fun a b => a.sort_order ≤ b.sort_order

instance : DecidableRel playerAsc := fun _ _ => Nat.decLe _ _

instance : IsTotal Player playerAsc := ⟨fun a b => Nat.le_total a.sort_order b.sort_order⟩

instance : IsTrans Player playerAsc := ⟨fun _ _ _ h1 h2 => Nat.le_trans h1 h2⟩

/-- The week manager `ensure_week(week_date)`: if a week with this date exists return its id
with no writes; otherwise insert the week row and one `played=false` cell
per current player (in `sort_order` order) per game number 1..16. -/
def ensure_week (d now : Nat) (st : DB) : Nat × DB :=
  match st.weeks.find? (fun w => w.week_date == d) with
  | some w => (w.id, st)
  | none =>
    let week_id := st.next_week_id
    let pids := (List.insertionSort playerAsc st.players).map (·.id)
    (week_id,
      { st with
        weeks := st.weeks ++ [⟨week_id, d, now⟩]
        cells := st.cells ++ cellsForWeek week_id pids
        next_week_id := week_id + 1 })

/-!  ### Week listing and index route -/

/-- The week ordering `order_by(weeks_table.c.week_date.desc())`. -/
def weekDesc : Week → Week → Prop := fun a b => b.week_date ≤ a.week_date

instance : DecidableRel weekDesc := fun _ _ => Nat.decLe _ _

instance : IsTotal Week weekDesc := ⟨fun a b => Nat.le_total b.week_date a.week_date⟩

instance : IsTrans Week weekDesc := ⟨fun _ _ _ h1 h2 => Nat.le_trans h2 h1⟩

/-- The listing `get_weeks()`: all week rows sorted by `week_date`
descending. -/
def get_weeks (st : DB) : List Week :=
  List.insertionSort weekDesc st.weeks

/-!  ### Schema bootstrap (`init_db`) -/

/-- The bootstrap `init_db()`: create tables if absent (no row effect in this model),
then seed `DEFAULT_PLAYERS` when the table is empty and that list is
nonempty. -/
def init_db (st : DB) : DB :=
  if st.players.length = 0 ∧ DEFAULT_PLAYERS ≠ [] then
    { st with
      players := mkPlayers st.next_player_id 1 DEFAULT_PLAYERS
      next_player_id := st.next_player_id + DEFAULT_PLAYERS.length }
  else st

/-- The `/` route after the session gate: bootstrap, list the weeks, and
redirect to the first (most recent) one, or `none` for the empty state. -/
def index (st : DB) : Option Nat :=
  match get_weeks (init_db st) with
  | [] => none
  | w :: _ => some w.id

/-!  ### `create_week` route -/

/-- The coalescing
`date_str = request.form.get("week_date") or date.today().isoformat()`:
a missing field is `None` and the empty string is falsy, so both coalesce
to today's ISO string. -/
def resolve_date_str (field : Option String) (todayIso : String) : String :=
  match field with
  | none => todayIso
  | some s => if s = "" then todayIso else s

/-- The `create_week` route: coalesce the form field, parse the ISO date
string (the parser is a parameter of the model) and call `ensure_week`. -/
def create_week (parse : String → Nat) (now : Nat) (todayIso : String)
    (field : Option String) (st : DB) : Nat × DB :=
  ensure_week (parse (resolve_date_str field todayIso)) now st

/-!  ### Toggle route -/

/-- The JSON responses of the `toggle` route: `({"ok": False}, 404)` and
`{"ok": True, "played": 1 if new_value else 0}`. -/
inductive ToggleResult where
  | notFound
  | toggled (played : Bool)
  deriving Repr, DecidableEq

/-- The WHERE clause of the `toggle` route on one row. -/
def cellMatches (week_id player_id game_no : Nat) (c : Cell) : Bool :=
  c.week_id == week_id && c.player_id == player_id && c.game_no == game_no

/-- The UPDATE of the `toggle` route: set `played` to `v` on every row
matched by the WHERE clause. -/
def setMatched (week_id player_id game_no : Nat) (v : Bool) (l : List Cell) : List Cell :=
  l.map (fun c =>
    if cellMatches week_id player_id game_no c then { c with played := v } else c)

/-- The `toggle` route: look up the exact cell; 404 with no writes when it
is absent, otherwise flip the boolean, persist it on every matching row and
return the new value. -/
def toggle (week_id player_id game_no : Nat) (st : DB) : ToggleResult × DB :=
  match st.cells.find? (cellMatches week_id player_id game_no) with
  | none => (.notFound, st)
  | some row =>
    let new_value := !row.played
    (.toggled new_value,
      { st with cells := setMatched week_id player_id game_no new_value st.cells })

/-!  ### Session gate (`login` route) -/

/-- The three outcomes of a POST to `/login`. -/
inductive LoginResult where
  | configError
  | success
  | invalidLogin
  deriving Repr, DecidableEq

/-- The `login` route on a POST: if no admin password is configured, the
configuration-error page is rendered before the form is even read; else the
submitted username is stripped and compared with the configured one, the
password compared verbatim, and any mismatch yields the one generic
invalid-login message. -/
def login (admin_username admin_password username password : String) : LoginResult :=
  if admin_password = "" then .configError
  else if pyStrip username = admin_username ∧ admin_password ≠ "" ∧ password = admin_password then
    .success
  else .invalidLogin

/-!  ## Lemmas about roster normalization -/

theorem dedup_sublist (l : List String) : ∀ seen, (dedup_names seen l).Sublist l := by
  induction l with
  | nil => intro seen; exact List.Sublist.refl _
  | cons n rest ih =>
    intro seen
    by_cases h : pyLower n ∈ seen
    · rw [dedup_names, if_pos h]
      exact (ih seen).cons n
    · rw [dedup_names, if_neg h]
      exact (ih (pyLower n :: seen)).cons₂ n

theorem dedup_not_seen (l : List String) :
    ∀ seen s, s ∈ dedup_names seen l → pyLower s ∉ seen := by
  induction l with
  | nil => intro seen s hs; simp [dedup_names] at hs
  | cons n rest ih =>
    intro seen s hs
    by_cases h : pyLower n ∈ seen
    · rw [dedup_names, if_pos h] at hs
      exact ih seen s hs
    · rw [dedup_names, if_neg h] at hs
      rcases List.mem_cons.1 hs with rfl | hs'
      · exact h
      · have := ih _ s hs'
        exact fun hmem => this (List.mem_cons_of_mem _ hmem)

theorem dedup_nodup_lower (l : List String) :
    ∀ seen, ((dedup_names seen l).map pyLower).Nodup := by
  induction l with
  | nil => intro seen; simp [dedup_names]
  | cons n rest ih =>
    intro seen
    by_cases h : pyLower n ∈ seen
    · rw [dedup_names, if_pos h]
      exact ih seen
    · rw [dedup_names, if_neg h]
      refine List.nodup_cons.2 ⟨?_, ih _⟩
      intro hmem
      rcases List.mem_map.1 hmem with ⟨s, hs, hlow⟩
      exact dedup_not_seen rest _ s hs (hlow ▸ List.mem_cons_self _ _)

theorem dedup_complete (l : List String) :
    ∀ seen s, s ∈ l → pyLower s ∈ seen ∨ pyLower s ∈ (dedup_names seen l).map pyLower := by
  induction l with
  | nil => intro seen s hs; simp at hs
  | cons n rest ih =>
    intro seen s hs
    by_cases h : pyLower n ∈ seen
    · rw [dedup_names, if_pos h]
      rcases List.mem_cons.1 hs with rfl | hs'
      · exact Or.inl h
      · exact ih seen s hs'
    · rw [dedup_names, if_neg h]
      rcases List.mem_cons.1 hs with rfl | hs'
      · exact Or.inr (by simp)
      · rcases ih (pyLower n :: seen) s hs' with hseen | hmem
        · rcases List.mem_cons.1 hseen with heq | hseen'
          · exact Or.inr (by simp [heq])
          · exact Or.inl hseen'
        · exact Or.inr (by simp [hmem])

theorem dedup_first (l : List String) :
    ∀ seen s, s ∈ dedup_names seen l →
      l.find? (fun t => pyLower t == pyLower s) = some s := by
  induction l with
  | nil => intro seen s hs; simp [dedup_names] at hs
  | cons n rest ih =>
    intro seen s hs
    by_cases h : pyLower n ∈ seen
    · rw [dedup_names, if_pos h] at hs
      have hne : pyLower n ≠ pyLower s :=
        fun heq => dedup_not_seen rest seen s hs (heq ▸ h)
      rw [List.find?_cons_of_neg _ (by simpa using hne)]
      exact ih seen s hs
    · rw [dedup_names, if_neg h] at hs
      rcases List.mem_cons.1 hs with rfl | hs'
      · rw [List.find?_cons_of_pos _ (by simp)]
      · have hne : pyLower n ≠ pyLower s := fun heq =>
          dedup_not_seen rest _ s hs' (heq ▸ List.mem_cons_self _ _)
        rw [List.find?_cons_of_neg _ (by simpa using hne)]
        exact ih _ s hs'

theorem mkPlayers_map_name (u : List String) :
    ∀ base idx, (mkPlayers base idx u).map (·.name) = u := by
  induction u with
  | nil => intro base idx; rfl
  | cons n rest ih => intro base idx; simp [mkPlayers, ih]

theorem mkPlayers_map_sort_order (u : List String) :
    ∀ base idx, (mkPlayers base idx u).map (·.sort_order) = List.range' idx u.length := by
  induction u with
  | nil => intro base idx; rfl
  | cons n rest ih => intro base idx; simp [mkPlayers, ih, List.range']

theorem mkPlayers_map_id (u : List String) :
    ∀ base idx, (mkPlayers base idx u).map (·.id) = List.range' base u.length := by
  induction u with
  | nil => intro base idx; rfl
  | cons n rest ih => intro base idx; simp [mkPlayers, ih, List.range']

/-- C1: `replace_players` normalizes the raw lines by trimming, dropping
blank lines and deduplicating case-insensitively while keeping the first
occurrence's casing and the relative order (the kept list is a sublist of
the trimmed nonempty lines, its lowercase image has no duplicates and
covers every trimmed line, and each kept name is the first line sharing its
lowercasing); the inserted players carry the kept names with `sort_order`
1..M; in particular `["Bob", "bob ", "Alice"]` yields the roster
`["Bob", "Alice"]`. -/
theorem claim_C1 (lines : List String) (st : DB) :
    (unique_names lines).Sublist (normalize_names lines) ∧
    ((unique_names lines).map pyLower).Nodup ∧
    (∀ s ∈ normalize_names lines, pyLower s ∈ (unique_names lines).map pyLower) ∧
    (∀ s ∈ unique_names lines,
      (normalize_names lines).find? (fun t => pyLower t == pyLower s) = some s) ∧
    (unique_names lines ≠ [] →
      (replace_players lines st).players.map (·.name) = unique_names lines ∧
      (replace_players lines st).players.map (·.sort_order) =
        List.range' 1 (unique_names lines).length) ∧
    unique_names ["Bob", "bob ", "Alice"] = ["Bob", "Alice"] ∧
    (replace_players ["Bob", "bob ", "Alice"] st).players.map (·.name) = ["Bob", "Alice"] := by
  have hconc : unique_names ["Bob", "bob ", "Alice"] = ["Bob", "Alice"] := by decide
  refine ⟨dedup_sublist _ _, dedup_nodup_lower _ _, ?_, ?_, ?_, hconc, ?_⟩
  · intro s hs
    rcases dedup_complete (normalize_names lines) [] s hs with h | h
    · simp at h
    · exact h
  · intro s hs
    exact dedup_first _ _ s hs
  · intro hne
    have hfalse : (unique_names lines).isEmpty = false := by
      cases h : unique_names lines with
      | nil => exact absurd h hne
      | cons a l => rfl
    constructor
    · simp [replace_players, hfalse, mkPlayers_map_name]
    · simp [replace_players, hfalse, mkPlayers_map_sort_order]
  · have hfalse : (unique_names ["Bob", "bob ", "Alice"]).isEmpty = false := by
      rw [hconc]; rfl
    simp [replace_players, hfalse, mkPlayers_map_name, hconc]

theorem claim_C1_witness :
    unique_names ["Bob", "bob ", "Alice"] ≠ [] ∧
    (replace_players ["Bob", "bob ", "Alice"] ⟨[], [], [], 1, 1⟩).players.map (·.name) =
      unique_names ["Bob", "bob ", "Alice"] :=
  ⟨by decide, ((claim_C1 ["Bob", "bob ", "Alice"] ⟨[], [], [], 1, 1⟩).2.2.2.2.1 (by decide)).1⟩

/-- C4: a roster-replace input whose lines are all blank after trimming
performs no change at all: the database state is exactly as before. -/
theorem claim_C4 (lines : List String) (st : DB)
    (h : ∀ l ∈ lines, pyStrip l = "") :
    replace_players lines st = st := by
  have hn : normalize_names lines = [] := by
    unfold normalize_names
    rw [List.filter_eq_nil_iff]
    intro a ha
    rcases List.mem_map.1 ha with ⟨l, hl, rfl⟩
    rw [h l hl]
    decide
  have hu : unique_names lines = [] := by rw [unique_names, hn]; rfl
  simp [replace_players, hu]

theorem claim_C4_witness :
    (∀ l ∈ ["", "  "], pyStrip l = "") ∧
    replace_players ["", "  "] ⟨[⟨1, "Old", 1⟩], [⟨1, 5, 0⟩], [⟨1, 1, 1, true⟩], 2, 2⟩ =
      ⟨[⟨1, "Old", 1⟩], [⟨1, 5, 0⟩], [⟨1, 1, 1, true⟩], 2, 2⟩ :=
  ⟨by decide, claim_C4 _ _ (by decide)⟩

/-!  ## Lemmas about the attendance-cell generators -/

theorem gameNos_length : gameNos.length = GAMES_PER_WEEK := rfl

theorem cellsForWeek_length (wid : Nat) :
    ∀ pids : List Nat, (cellsForWeek wid pids).length = pids.length * GAMES_PER_WEEK := by
  intro pids
  induction pids with
  | nil => rfl
  | cons pid rest ih =>
    simp only [cellsForWeek, List.length_append, List.length_map, ih, List.length_cons,
      gameNos_length]
    ring

theorem mem_cellsForWeek (wid : Nat) :
    ∀ (pids : List Nat) (c : Cell), c ∈ cellsForWeek wid pids →
      c.week_id = wid ∧ c.played = false ∧ c.player_id ∈ pids := by
  intro pids
  induction pids with
  | nil => intro c hc; simp [cellsForWeek] at hc
  | cons pid rest ih =>
    intro c hc
    rcases List.mem_append.1 hc with hmem | hmem
    · rcases List.mem_map.1 hmem with ⟨g, _, rfl⟩
      exact ⟨rfl, rfl, List.mem_cons_self _ _⟩
    · obtain ⟨h1, h2, h3⟩ := ih c hmem
      exact ⟨h1, h2, List.mem_cons_of_mem _ h3⟩

theorem countP_cellsForWeek_self (wid : Nat) (pids : List Nat) :
    (cellsForWeek wid pids).countP (fun c => c.week_id == wid) =
      pids.length * GAMES_PER_WEEK := by
  rw [List.countP_eq_length.2, cellsForWeek_length]
  intro c hc
  simp [(mem_cellsForWeek wid pids c hc).1]

theorem countP_cellsForWeek_ne (wid W : Nat) (pids : List Nat) (h : W ≠ wid) :
    (cellsForWeek wid pids).countP (fun c => c.week_id == W) = 0 := by
  rw [List.countP_eq_zero]
  intro c hc
  simp [(mem_cellsForWeek wid pids c hc).1, h.symm]

/-- C2: `ensure_week` is idempotent: when a week with date `d` exists it
returns that week's id and performs no writes; a first call on a state with
no week of date `d` and no stray cells of the new week id, followed by a
second call, returns the same id both times, changes nothing the second
time, and leaves exactly one week row for `d` and exactly
`players × GAMES_PER_WEEK` cells for it, all with `played = false`. -/
theorem claim_C2 (st : DB) (d n1 n2 : Nat)
    (hw : ∀ w ∈ st.weeks, w.week_date ≠ d)
    (hc : ∀ c ∈ st.cells, c.week_id ≠ st.next_week_id) :
    (∀ (st' : DB) (w : Week), st'.weeks.find? (fun w2 => w2.week_date == d) = some w →
        ensure_week d n2 st' = (w.id, st')) ∧
    ensure_week d n2 (ensure_week d n1 st).2 = ensure_week d n1 st ∧
    (ensure_week d n1 st).2.weeks.countP (fun w => w.week_date == d) = 1 ∧
    (ensure_week d n1 st).2.cells.countP (fun c => c.week_id == (ensure_week d n1 st).1) =
      st.players.length * GAMES_PER_WEEK ∧
    (∀ c ∈ (ensure_week d n1 st).2.cells,
      c.week_id = (ensure_week d n1 st).1 → c.played = false) := by
  have hfind : st.weeks.find? (fun w => w.week_date == d) = none :=
    List.find?_eq_none.2 (fun w hmem => by simpa using hw w hmem)
  have hexist : ∀ (st' : DB) (w : Week),
      st'.weeks.find? (fun w2 => w2.week_date == d) = some w →
      ensure_week d n2 st' = (w.id, st') := by
    intro st' w hf
    unfold ensure_week
    rw [hf]
  have h1 : ensure_week d n1 st =
      (st.next_week_id,
       { st with
          weeks := st.weeks ++ [⟨st.next_week_id, d, n1⟩]
          cells := st.cells ++ cellsForWeek st.next_week_id
            ((List.insertionSort playerAsc st.players).map (·.id))
          next_week_id := st.next_week_id + 1 }) := by
    unfold ensure_week
    rw [hfind]
  have hfind1 : (st.weeks ++ [(⟨st.next_week_id, d, n1⟩ : Week)]).find?
      (fun w2 => w2.week_date == d) = some ⟨st.next_week_id, d, n1⟩ := by
    rw [List.find?_append, hfind]
    simp
  have hplen : ((List.insertionSort playerAsc st.players).map (·.id)).length =
      st.players.length := by
    rw [List.length_map, (List.perm_insertionSort playerAsc st.players).length_eq]
  refine ⟨hexist, ?_, ?_, ?_, ?_⟩
  · rw [h1]
    exact hexist
      { st with
        weeks := st.weeks ++ [⟨st.next_week_id, d, n1⟩]
        cells := st.cells ++ cellsForWeek st.next_week_id
          ((List.insertionSort playerAsc st.players).map (·.id))
        next_week_id := st.next_week_id + 1 }
      ⟨st.next_week_id, d, n1⟩ hfind1
  · rw [h1, List.countP_append, List.countP_eq_zero.2 (fun w hmem => by simpa using hw w hmem)]
    simp
  · rw [h1, List.countP_append, List.countP_eq_zero.2 (fun c hmem => by simpa using hc c hmem),
      countP_cellsForWeek_self, hplen]
    exact Nat.zero_add _
  · rw [h1]
    intro c hmem hcid
    rcases List.mem_append.1 hmem with hmem' | hmem'
    · exact absurd hcid (hc c hmem')
    · exact (mem_cellsForWeek _ _ c hmem').2.1

theorem claim_C2_witness :
    (∀ w ∈ (⟨[⟨1, "A", 1⟩], [], [], 2, 1⟩ : DB).weeks, w.week_date ≠ 7) ∧
    (∀ c ∈ (⟨[⟨1, "A", 1⟩], [], [], 2, 1⟩ : DB).cells,
      c.week_id ≠ (⟨[⟨1, "A", 1⟩], [], [], 2, 1⟩ : DB).next_week_id) ∧
    (ensure_week 7 3 (⟨[⟨1, "A", 1⟩], [], [], 2, 1⟩ : DB)).2.weeks.countP
      (fun w => w.week_date == 7) = 1 :=
  ⟨by decide, by decide,
    (claim_C2 ⟨[⟨1, "A", 1⟩], [], [], 2, 1⟩ 7 3 4 (by decide) (by decide)).2.2.1⟩

theorem mem_cellsForWeeks (pids : List Nat) :
    ∀ (ws : List Week) (c : Cell), c ∈ cellsForWeeks pids ws →
      c.played = false ∧ c.player_id ∈ pids ∧ ∃ w ∈ ws, c.week_id = w.id := by
  intro ws
  induction ws with
  | nil => intro c hc; simp [cellsForWeeks] at hc
  | cons w rest ih =>
    intro c hc
    rcases List.mem_append.1 hc with hmem | hmem
    · obtain ⟨h1, h2, h3⟩ := mem_cellsForWeek _ _ c hmem
      exact ⟨h2, h3, w, List.mem_cons_self _ _, h1⟩
    · obtain ⟨h1, h2, w', hw', h3⟩ := ih c hmem
      exact ⟨h1, h2, w', List.mem_cons_of_mem _ hw', h3⟩

theorem countP_cellsForWeeks_zero (pids : List Nat) (W : Nat) :
    ∀ ws : List Week, (∀ w ∈ ws, w.id ≠ W) →
      (cellsForWeeks pids ws).countP (fun c => c.week_id == W) = 0 := by
  intro ws
  induction ws with
  | nil => intro _; rfl
  | cons w rest ih =>
    intro h
    rw [cellsForWeeks, List.countP_append,
      countP_cellsForWeek_ne _ _ _ (fun hWe => h w (List.mem_cons_self _ _) hWe.symm),
      ih (fun w' hw' => h w' (List.mem_cons_of_mem _ hw'))]

theorem countP_cellsForWeeks_mem (pids : List Nat) :
    ∀ (ws : List Week) (w0 : Week), (ws.map (·.id)).Nodup → w0 ∈ ws →
      (cellsForWeeks pids ws).countP (fun c => c.week_id == w0.id) =
        pids.length * GAMES_PER_WEEK := by
  intro ws
  induction ws with
  | nil => intro w0 _ h; simp at h
  | cons w rest ih =>
    intro w0 hnd hmem
    have hhead : w.id ∉ rest.map (·.id) := (List.nodup_cons.1 hnd).1
    have hrest : (rest.map (·.id)).Nodup := (List.nodup_cons.1 hnd).2
    rcases List.mem_cons.1 hmem with rfl | hmem'
    · rw [cellsForWeeks, List.countP_append, countP_cellsForWeek_self,
        countP_cellsForWeeks_zero]
      · exact rfl
      · intro w' hw' heq
        exact hhead (heq ▸ List.mem_map.2 ⟨w', hw', rfl⟩)
    · have hne : w0.id ≠ w.id := by
        intro heq
        exact hhead (heq ▸ List.mem_map.2 ⟨w0, hmem', rfl⟩)
      rw [cellsForWeeks, List.countP_append, countP_cellsForWeek_ne _ _ _ hne,
        ih w0 hrest hmem', Nat.zero_add]

theorem mkPlayers_id_ge (u : List String) :
    ∀ base idx p, p ∈ mkPlayers base idx u → base ≤ p.id := by
  induction u with
  | nil => intro base idx p hp; simp [mkPlayers] at hp
  | cons n rest ih =>
    intro base idx p hp
    rcases List.mem_cons.1 hp with rfl | hp'
    · exact Nat.le_refl _
    · exact Nat.le_of_succ_le (ih (base + 1) (idx + 1) p hp')

theorem mkPlayers_length (u : List String) :
    ∀ base idx, (mkPlayers base idx u).length = u.length := by
  induction u with
  | nil => intro base idx; rfl
  | cons n rest ih => intro base idx; simp [mkPlayers, ih]

/-- C3: a roster replacement that installs `M` players leaves the week rows
untouched, rebuilds exactly `M × GAMES_PER_WEEK` cells for every existing
week, all `played = false`, and no cell of any pre-replacement player
survives. -/
theorem claim_C3 (lines : List String) (st : DB)
    (hne : unique_names lines ≠ [])
    (hids : (st.weeks.map (·.id)).Nodup)
    (hpid : ∀ p ∈ st.players, p.id < st.next_player_id) :
    (replace_players lines st).weeks = st.weeks ∧
    (replace_players lines st).players.length = (unique_names lines).length ∧
    (∀ w ∈ st.weeks, (replace_players lines st).cells.countP (fun c => c.week_id == w.id) =
      (unique_names lines).length * GAMES_PER_WEEK) ∧
    (∀ c ∈ (replace_players lines st).cells, c.played = false) ∧
    (∀ c ∈ (replace_players lines st).cells, ∀ p ∈ st.players, c.player_id ≠ p.id) := by
  have hfalse : (unique_names lines).isEmpty = false := by
    cases h : unique_names lines with
    | nil => exact absurd h hne
    | cons a l => rfl
  have hrepl : replace_players lines st =
      { players := mkPlayers st.next_player_id 1 (unique_names lines)
        weeks := st.weeks
        cells := cellsForWeeks
          ((mkPlayers st.next_player_id 1 (unique_names lines)).map (·.id)) st.weeks
        next_player_id := st.next_player_id + (unique_names lines).length
        next_week_id := st.next_week_id } := by
    simp [replace_players, hfalse]
  have hplen : ((mkPlayers st.next_player_id 1 (unique_names lines)).map (·.id)).length =
      (unique_names lines).length := by
    rw [List.length_map, mkPlayers_length]
  refine ⟨by rw [hrepl], ?_, ?_, ?_, ?_⟩
  · rw [hrepl]
    exact mkPlayers_length _ _ _
  · intro w hw
    rw [hrepl]
    rw [countP_cellsForWeeks_mem _ st.weeks w hids hw, hplen]
  · intro c hc
    rw [hrepl] at hc
    exact (mem_cellsForWeeks _ _ c hc).1
  · intro c hc p hp
    rw [hrepl] at hc
    obtain ⟨-, hmem, -⟩ := mem_cellsForWeeks _ _ c hc
    rcases List.mem_map.1 hmem with ⟨q, hq, hqid⟩
    have : st.next_player_id ≤ c.player_id := hqid ▸ mkPlayers_id_ge _ _ _ q hq
    intro heq
    exact Nat.not_lt.2 this (heq ▸ hpid p hp)

theorem claim_C3_witness :
    unique_names ["A"] ≠ [] ∧
    (((⟨[⟨1, "Old", 1⟩], [⟨1, 5, 0⟩], [⟨1, 1, 3, true⟩], 2, 2⟩ : DB).weeks.map (·.id)).Nodup) ∧
    (∀ p ∈ (⟨[⟨1, "Old", 1⟩], [⟨1, 5, 0⟩], [⟨1, 1, 3, true⟩], 2, 2⟩ : DB).players,
      p.id < (⟨[⟨1, "Old", 1⟩], [⟨1, 5, 0⟩], [⟨1, 1, 3, true⟩], 2, 2⟩ : DB).next_player_id) ∧
    (replace_players ["A"] ⟨[⟨1, "Old", 1⟩], [⟨1, 5, 0⟩], [⟨1, 1, 3, true⟩], 2, 2⟩).weeks =
      [⟨1, 5, 0⟩] :=
  ⟨by decide, by decide, by decide,
    (claim_C3 ["A"] ⟨[⟨1, "Old", 1⟩], [⟨1, 5, 0⟩], [⟨1, 1, 3, true⟩], 2, 2⟩
      (by decide) (by decide) (by decide)).1⟩

/-!  ## Lemmas about the toggle route -/

theorem cellMatches_set (w p g : Nat) (c : Cell) (v : Bool) :
    cellMatches w p g { c with played := v } = cellMatches w p g c := rfl

theorem map_id_of_mem {α : Type} (f : α → α) :
    ∀ l : List α, (∀ x ∈ l, f x = x) → l.map f = l := by
  intro l
  induction l with
  | nil => intro _; rfl
  | cons x rest ih =>
    intro h
    rw [List.map_cons, h x (List.mem_cons_self _ _),
      ih (fun y hy => h y (List.mem_cons_of_mem _ hy))]

theorem find?_setMatched (w p g : Nat) (v : Bool) (c : Cell) :
    ∀ l : List Cell, l.find? (cellMatches w p g) = some c →
      (setMatched w p g v l).find? (cellMatches w p g) = some { c with played := v } := by
  intro l
  induction l with
  | nil => intro h; simp at h
  | cons x rest ih =>
    intro h
    cases hx : cellMatches w p g x with
    | true =>
      rw [List.find?_cons_of_pos _ hx] at h
      injection h with h
      subst h
      rw [setMatched, List.map_cons, if_pos hx,
        List.find?_cons_of_pos _ (by rw [cellMatches_set]; exact hx)]
    | false =>
      rw [List.find?_cons_of_neg _ (by simp [hx])] at h
      rw [setMatched, List.map_cons, if_neg (by simp [hx]),
        List.find?_cons_of_neg _ (by simp [hx])]
      exact ih h

theorem uniq_match (w p g : Nat) (c : Cell) :
    ∀ l : List Cell, l.countP (cellMatches w p g) ≤ 1 →
      l.find? (cellMatches w p g) = some c →
      ∀ x ∈ l, cellMatches w p g x = true → x = c := by
  intro l
  induction l with
  | nil => intro _ h; simp at h
  | cons y rest ih =>
    intro hcount hfind x hx hmatch
    cases hy : cellMatches w p g y with
    | true =>
      rw [List.find?_cons_of_pos _ hy] at hfind
      injection hfind with hfind
      subst hfind
      have hzero : rest.countP (cellMatches w p g) = 0 := by
        rw [List.countP_cons, hy, if_pos rfl] at hcount
        omega
      rcases List.mem_cons.1 hx with rfl | hx'
      · rfl
      · exact absurd hmatch (by
          have := List.countP_eq_zero.1 hzero x hx'
          simp at this
          simp [this])
    | false =>
      rw [List.find?_cons_of_neg _ (by simp [hy])] at hfind
      rcases List.mem_cons.1 hx with rfl | hx'
      · rw [hy] at hmatch
        exact absurd hmatch (by simp)
      · refine ih ?_ hfind x hx' hmatch
        rw [List.countP_cons, hy] at hcount
        simpa using hcount

theorem toggle_eq_some (w p g : Nat) (st : DB) (c : Cell)
    (hf : st.cells.find? (cellMatches w p g) = some c) :
    toggle w p g st =
      (.toggled (!c.played),
       { st with cells := setMatched w p g (!c.played) st.cells }) := by
  unfold toggle
  rw [hf]

theorem setMatched_restore (w p g : Nat) (c : Cell) (l : List Cell)
    (huniq : l.countP (cellMatches w p g) ≤ 1)
    (hf : l.find? (cellMatches w p g) = some c) :
    setMatched w p g c.played (setMatched w p g (!c.played) l) = l := by
  rw [setMatched, setMatched, List.map_map]
  refine map_id_of_mem _ l ?_
  intro x hx
  cases hPx : cellMatches w p g x with
  | true =>
    have hxc : x = c := uniq_match w p g c l huniq hf x hx hPx
    subst hxc
    simp [Function.comp, hPx, cellMatches_set]
  | false =>
    simp [Function.comp, hPx]

/-- C5: toggling an existing cell returns and persists the flipped value of
its `played` boolean, and toggling the same cell twice restores the
database to exactly its original state while returning the original value
the second time. -/
theorem claim_C5 (st : DB) (w p g : Nat) (c : Cell)
    (huniq : st.cells.countP (cellMatches w p g) ≤ 1)
    (hf : st.cells.find? (cellMatches w p g) = some c) :
    (toggle w p g st).1 = .toggled (!c.played) ∧
    { c with played := !c.played } ∈ (toggle w p g st).2.cells ∧
    toggle w p g (toggle w p g st).2 = (.toggled c.played, st) := by
  have hPc : cellMatches w p g c = true := List.find?_some hf
  have hcmem : c ∈ st.cells := List.mem_of_find?_eq_some hf
  have ht1 := toggle_eq_some w p g st c hf
  have hf2 := find?_setMatched w p g (!c.played) c st.cells hf
  have ht2 := toggle_eq_some w p g
    { st with cells := setMatched w p g (!c.played) st.cells }
    { c with played := !c.played } hf2
  have final : toggle w p g { st with cells := setMatched w p g (!c.played) st.cells } =
      (.toggled c.played, st) := by
    rw [ht2]
    show (ToggleResult.toggled (!(!c.played)),
      ({ st with cells :=
        setMatched w p g (!(!c.played)) (setMatched w p g (!c.played) st.cells) } : DB)) = _
    rw [Bool.not_not, setMatched_restore w p g c st.cells huniq hf]
  refine ⟨by rw [ht1], ?_, ?_⟩
  · rw [ht1]
    exact List.mem_map.2 ⟨c, hcmem, by rw [if_pos hPc]⟩
  · rw [ht1]
    exact final

theorem claim_C5_witness :
    ((⟨[], [⟨1, 5, 0⟩], [⟨1, 2, 3, false⟩], 1, 2⟩ : DB).cells.countP (cellMatches 1 2 3) ≤ 1) ∧
    toggle 1 2 3 (toggle 1 2 3 (⟨[], [⟨1, 5, 0⟩], [⟨1, 2, 3, false⟩], 1, 2⟩ : DB)).2 =
      (.toggled false, ⟨[], [⟨1, 5, 0⟩], [⟨1, 2, 3, false⟩], 1, 2⟩) :=
  ⟨by decide,
    (claim_C5 ⟨[], [⟨1, 5, 0⟩], [⟨1, 2, 3, false⟩], 1, 2⟩ 1 2 3 ⟨1, 2, 3, false⟩
      (by decide) (by decide)).2.2⟩

/-- C6: toggling a combination for which no cell row exists returns the
not-found result and leaves the database exactly unchanged. -/
theorem claim_C6 (st : DB) (w p g : Nat)
    (h : ∀ c ∈ st.cells, cellMatches w p g c = false) :
    toggle w p g st = (.notFound, st) := by
  have hf : st.cells.find? (cellMatches w p g) = none :=
    List.find?_eq_none.2 (fun x hx => by simp [h x hx])
  unfold toggle
  rw [hf]

theorem claim_C6_witness :
    (∀ c ∈ (⟨[], [⟨1, 5, 0⟩], [⟨1, 2, 3, false⟩], 1, 2⟩ : DB).cells,
      cellMatches 9 9 9 c = false) ∧
    toggle 9 9 9 (⟨[], [⟨1, 5, 0⟩], [⟨1, 2, 3, false⟩], 1, 2⟩ : DB) =
      (.notFound, ⟨[], [⟨1, 5, 0⟩], [⟨1, 2, 3, false⟩], 1, 2⟩) :=
  ⟨by decide, claim_C6 ⟨[], [⟨1, 5, 0⟩], [⟨1, 2, 3, false⟩], 1, 2⟩ 9 9 9 (by decide)⟩

/-!  ## Session gate -/

/-- C7 as stated is false: the route strips the submitted username before
comparing, so `" admin"` logs in although it does not exactly match the
configured `"admin"`. -/
theorem claim_C7_counterexample :
    login "admin" "pw" " admin" "pw" = .success ∧ (" admin" : String) ≠ "admin" := by
  constructor
  · decide
  · decide

/-- C7 (amended): with an empty configured password every attempt yields
the configuration error; with a nonempty configured password, login
succeeds iff the submitted username stripped of surrounding whitespace
equals the configured username and the password matches verbatim, and
every mismatch yields the single generic invalid-login error. -/
theorem claim_C7 (au ap u p : String) :
    (ap = "" → login au ap u p = .configError) ∧
    (ap ≠ "" →
      ((login au ap u p = .success) ↔ (pyStrip u = au ∧ p = ap)) ∧
      (¬(pyStrip u = au ∧ p = ap) → login au ap u p = .invalidLogin)) := by
  unfold login
  by_cases hap : ap = ""
  · simp [hap]
  · rw [if_neg hap]
    refine ⟨fun h => absurd h hap, fun _ => ⟨⟨?_, ?_⟩, ?_⟩⟩
    · intro hs
      by_cases hc : pyStrip u = au ∧ ap ≠ "" ∧ p = ap
      · exact ⟨hc.1, hc.2.2⟩
      · rw [if_neg hc] at hs
        exact LoginResult.noConfusion hs
    · intro h
      rw [if_pos ⟨h.1, hap, h.2⟩]
    · intro hn
      rw [if_neg (fun hc => hn ⟨hc.1, hc.2.2⟩)]

theorem claim_C7_witness :
    login "admin" "" "anything" "everything" = .configError ∧
    login "admin" "pw" " admin " "pw" = .success ∧
    login "admin" "pw" "admin" "wrong" = .invalidLogin :=
  ⟨(claim_C7 "admin" "" "anything" "everything").1 rfl,
   ((claim_C7 "admin" "pw" " admin " "pw").2 (by decide)).1.mpr ⟨by decide, rfl⟩,
   ((claim_C7 "admin" "pw" "admin" "wrong").2 (by decide)).2 (by decide)⟩

/-!  ## Bootstrap and week listing -/

theorem init_db_eq (st : DB) : init_db st = st := by
  unfold init_db
  rw [if_neg]
  exact fun h => h.2 rfl

/-- C9: `DEFAULT_PLAYERS` is the empty list, so the seed branch of
`init_db` never fires and the per-request bootstrap leaves every stored row
unchanged, however often it runs. -/
theorem claim_C9 :
    DEFAULT_PLAYERS = [] ∧
    (∀ st : DB, init_db st = st) ∧
    (∀ (st : DB) (n : Nat), Nat.iterate init_db n st = st) := by
  refine ⟨rfl, init_db_eq, ?_⟩
  intro st n
  induction n with
  | zero => rfl
  | succ k ih => rw [Function.iterate_succ_apply, init_db_eq, ih]

/-- C8: `get_weeks` always returns a permutation of the stored week rows
sorted by `week_date` descending, and when at least one week exists the
index route redirects to a stored week whose date is maximal. -/
theorem claim_C8 (st : DB) (hne : st.weeks ≠ []) :
    (∀ st' : DB, (get_weeks st').Perm st'.weeks ∧ List.Sorted weekDesc (get_weeks st')) ∧
    (∃ w, w ∈ st.weeks ∧ index st = some w.id ∧
      ∀ w' ∈ st.weeks, w'.week_date ≤ w.week_date) := by
  have hsp : ∀ st' : DB, (get_weeks st').Perm st'.weeks ∧ List.Sorted weekDesc (get_weeks st') :=
    fun st' => ⟨List.perm_insertionSort _ _, List.sorted_insertionSort _ _⟩
  refine ⟨hsp, ?_⟩
  have hperm : (get_weeks st).Perm st.weeks := (hsp st).1
  have hsort : List.Sorted weekDesc (get_weeks st) := (hsp st).2
  cases hgw : get_weeks st with
  | nil =>
    rw [hgw] at hperm
    exact absurd (hperm.symm.eq_nil) hne
  | cons w rest =>
    rw [hgw] at hperm hsort
    refine ⟨w, ?_, ?_, ?_⟩
    · exact hperm.mem_iff.1 (List.mem_cons_self _ _)
    · unfold index
      rw [init_db_eq, hgw]
    · intro w' hw'
      rcases List.mem_cons.1 (hperm.mem_iff.2 hw') with rfl | hw'3
      · exact Nat.le_refl _
      · exact List.rel_of_sorted_cons hsort w' hw'3

theorem claim_C8_witness :
    (⟨[], [⟨1, 5, 0⟩, ⟨2, 9, 0⟩], [], 1, 3⟩ : DB).weeks ≠ [] ∧
    ∃ w, w ∈ (⟨[], [⟨1, 5, 0⟩, ⟨2, 9, 0⟩], [], 1, 3⟩ : DB).weeks ∧
      index ⟨[], [⟨1, 5, 0⟩, ⟨2, 9, 0⟩], [], 1, 3⟩ = some w.id ∧
      ∀ w' ∈ (⟨[], [⟨1, 5, 0⟩, ⟨2, 9, 0⟩], [], 1, 3⟩ : DB).weeks,
        w'.week_date ≤ w.week_date :=
  ⟨by decide, (claim_C8 ⟨[], [⟨1, 5, 0⟩, ⟨2, 9, 0⟩], [], 1, 3⟩ (by decide)).2⟩

/-!  ## `create_week` date coalescing -/

/-- C10: a missing or empty `week_date` field is coalesced to today's ISO
string before any parsing, so `ensure_week` runs on today's date and the
parser never receives the empty string; a nonempty field is parsed as
submitted. -/
theorem claim_C10 (parse : String → Nat) (now : Nat) (todayIso : String) (st : DB)
    (s : String) (hs : s ≠ "") (ht : todayIso ≠ "") :
    create_week parse now todayIso none st = ensure_week (parse todayIso) now st ∧
    create_week parse now todayIso (some "") st = ensure_week (parse todayIso) now st ∧
    create_week parse now todayIso (some s) st = ensure_week (parse s) now st ∧
    (∀ field, resolve_date_str field todayIso ≠ "") := by
  refine ⟨rfl, ?_, ?_, ?_⟩
  · simp [create_week, resolve_date_str]
  · simp only [create_week, resolve_date_str]
    rw [if_neg hs]
  · intro field
    cases field with
    | none => exact ht
    | some t =>
      simp only [resolve_date_str]
      by_cases hteq : t = ""
      · rw [if_pos hteq]
        exact ht
      · rw [if_neg hteq]
        exact hteq

theorem claim_C10_witness :
    ("2026-01-02" : String) ≠ "" ∧ ("2026-10-12" : String) ≠ "" ∧
    create_week String.length 0 "2026-10-12" none ⟨[], [], [], 1, 1⟩ =
      ensure_week ("2026-10-12".length) 0 ⟨[], [], [], 1, 1⟩ :=
  ⟨by decide, by decide,
    (claim_C10 String.length 0 "2026-10-12" ⟨[], [], [], 1, 1⟩ "2026-01-02"
      (by decide) (by decide)).1⟩

end CBP
